import Mathlib

/-!
Verification of the TribalWars bot against its specification.

Each Python function relevant to the claims is shallowly embedded as a
Lean definition over exact rationals (Python floats are modelled as ℚ;
every numeric comparison exercised by the theorems below is far from a
floating-point rounding boundary). Python dicts are modelled as
insertion-ordered association lists; Python's stable `sorted` is
modelled by a stable insertion sort.
-/

/-! ## Association-list helpers (Python dict model) -/

/-- Python `m.get(u, d)` on an insertion-ordered dict. -/
def lookupD (m : List (String × Int)) (u : String) (d : Int) : Int :=
  ((m.find? (fun p => p.1 = u)).map Prod.snd).getD d

/-- Python `m[u] = v` on a dict that already contains key `u` (order preserved). -/
def setKey (m : List (String × Int)) (u : String) (v : Int) : List (String × Int) :=
  m.map (fun p => if p.1 = u then (p.1, v) else p)

/-- Total value stored under key `u` (equals `lookupD` when keys are distinct). -/
def sumVal (m : List (String × Int)) (u : String) : Int :=
  (m.map (fun p => if p.1 = u then p.2 else 0)).sum

/-! ## core/scavenge_formulas.py -/

/-- Loot factor per scavenge option (1-4); source `LOOT_RATIOS`. -/
def LOOT_RATIOS : List (Nat × ℚ) := [(1, 1/10), (2, 1/4), (3, 1/2), (4, 3/4)]

/-- Python `LOOT_RATIOS.get(tier, 0.10)`. -/
def lootRatio (tier : Nat) : ℚ :=
  ((LOOT_RATIOS.find? (fun p => p.1 = tier)).map Prod.snd).getD (1/10)

/-- Units eligible for scavenging; source `SCAVENGE_UNITS`. -/
def SCAVENGE_UNITS : List String :=
  ["spear", "sword", "axe", "archer", "light", "marcher", "heavy"]

/-- Python `unit_carries.get(unit, 25)`. -/
def carryOf (carries : List (String × Int)) (u : String) : Int :=
  ((carries.find? (fun p => p.1 = u)).map Prod.snd).getD 25

/-- Source `calculate_carry_capacity`: total carry of a troop allocation. -/
def calculate_carry_capacity (troops : List (String × Int))
    (unit_carries : List (String × Int)) : Int :=
  ((troops.filter (fun p => decide (0 < p.2))).map
    (fun p => p.2 * carryOf unit_carries p.1)).sum

/-- Source `equal_runtime_weights`: weight `1/loot_ratio` per known tier. -/
def equal_runtime_weights (tiers : List Nat) : List (Nat × ℚ) :=
  tiers.filterMap (fun t =>
    if (LOOT_RATIOS.map Prod.fst).contains t then some (t, 1 / lootRatio t) else none)

/-- Stable insert for descending order by unit carry (ties keep earlier first). -/
def insertByCarry (carries : List (String × Int)) (x : String) :
    List String → List String
  | [] => [x]
  | y :: ys =>
    if carryOf carries y ≤ carryOf carries x then x :: y :: ys
    else y :: insertByCarry carries x ys

/-- Python `sorted(units, key=carry, reverse=True)` (stable). -/
def sortByCarryDesc (carries : List (String × Int)) : List String → List String
  | [] => []
  | x :: xs => insertByCarry carries x (sortByCarryDesc carries xs)

/-- Stable insert for descending order on naturals. -/
def insertNatDesc (x : Nat) : List Nat → List Nat
  | [] => [x]
  | y :: ys => if y ≤ x then x :: y :: ys else y :: insertNatDesc x ys

/-- Python `sorted(keys, reverse=True)`. -/
def sortNatDesc : List Nat → List Nat
  | [] => []
  | x :: xs => insertNatDesc x (sortNatDesc xs)

/-- Python `option_weights[tier]` (tier is always a key at call sites). -/
def weightOf (ow : List (Nat × ℚ)) (tier : Nat) : ℚ :=
  ((ow.find? (fun p => p.1 = tier)).map Prod.snd).getD 0

/-- The filtered troop pool: scavengeable units with positive counts. -/
def scavengePool (available : List (String × Int)) : List (String × Int) :=
  available.filter (fun p => SCAVENGE_UNITS.contains p.1 && decide (0 < p.2))

/-- The `total_carry` of the pool. -/
def poolTotalCarry (pool : List (String × Int)) (carries : List (String × Int)) : ℚ :=
  (pool.map (fun p => (p.2 : ℚ) * (carryOf carries p.1 : ℚ))).sum

/-- The greedy per-tier fill loop inside `allocate_by_ratio`: walk the units,
skip empty or zero-carry units, break once the gap is closed, otherwise take
`min(avail, floor(gap / carry_per))`. Returns (remaining, tier allocation). -/
def fillUnits (carries : List (String × Int)) (target : ℚ) :
    List String → List (String × Int) → List (String × Int) → ℚ →
    List (String × Int) × List (String × Int)
  | [], rem, al, _ => (rem, al)
  | u :: rest, rem, al, filled =>
    let avail := lookupD rem u 0
    if avail ≤ 0 then fillUnits carries target rest rem al filled
    else
      let carryPer := carryOf carries u
      if carryPer ≤ 0 then fillUnits carries target rest rem al filled
      else
        let gap := target - filled
        if gap ≤ 0 then (rem, al)
        else
          let take := min avail ⌊gap / (carryPer : ℚ)⌋
          if 0 < take then
            fillUnits carries target rest (setKey rem u (avail - take))
              (al ++ [(u, take)]) (filled + (take : ℚ) * (carryPer : ℚ))
          else fillUnits carries target rest rem al filled

/-- One iteration of the tier loop of `allocate_by_ratio` (state: remaining
pool and the allocations built so far, keyed by tier). -/
def fillStep (carries : List (String × Int)) (totalCarry weightSum : ℚ)
    (ow : List (Nat × ℚ))
    (acc : List (String × Int) × (Nat → List (String × Int))) (tier : Nat) :
    List (String × Int) × (Nat → List (String × Int)) :=
  let target := totalCarry * weightOf ow tier / weightSum
  let order := sortByCarryDesc carries (acc.1.map Prod.fst)
  let res := fillUnits carries target order acc.1 [] 0
  (res.1, fun t => if t = tier then res.2 else acc.2 t)

/-- Source `allocate_by_ratio`: split available troops across tiers by
carry-capacity targets; fill from the highest tier down to the
second-lowest greedily, then dump every remaining troop into the lowest
tier; drop empty tiers from the result (dict order = `option_weights`
key order). -/
def allocate_by_ratio (available : List (String × Int))
    (option_weights : List (Nat × ℚ)) (unit_carries : List (String × Int)) :
    List (Nat × List (String × Int)) :=
  let weightSum := (option_weights.map Prod.snd).sum
  if weightSum ≤ 0 then []
  else
    let pool := scavengePool available
    if pool.isEmpty then []
    else
      let totalCarry := poolTotalCarry pool unit_carries
      if totalCarry ≤ 0 then []
      else
        let tiers := option_weights.map Prod.fst
        let dumpTier := tiers.min?.getD 0
        let fillOrder := (sortNatDesc tiers).filter (fun t => decide (t ≠ dumpTier))
        let res := fillOrder.foldl (fillStep unit_carries totalCarry weightSum option_weights)
          (pool, fun _ => [])
        -- `allocations[dump_tier]` is still empty here, so adding the
        -- remaining counts equals taking the positive remaining entries.
        let dumpAlloc := res.1.filter (fun p => decide (0 < p.2))
        let allocFinal := fun t => if t = dumpTier then dumpAlloc else res.2 t
        option_weights.filterMap (fun p =>
          if (allocFinal p.1).isEmpty then none else some (p.1, allocFinal p.1))

/-- Sum over all tiers of the amount of unit `u` in an allocation. -/
def tierSum (a : List (Nat × List (String × Int))) (u : String) : Int :=
  (a.map (fun p => sumVal p.2 u)).sum

/-- The allocation of one tier in an `allocate_by_ratio` result. -/
def allocOfTier (a : List (Nat × List (String × Int))) (t : Nat) :
    List (String × Int) :=
  ((a.find? (fun p => p.1 = t)).map Prod.snd).getD []

/-! ## managers/building_manager.py -/

/-- A single step in a sequential build order (models/buildings.py). -/
structure BuildStep where
  building : String
  level : Int
deriving DecidableEq, Repr

/-- Village resources (models/village.py). -/
structure Resources where
  wood : Int := 0
  stone : Int := 0
  iron : Int := 0
deriving DecidableEq, Repr

/-- Source `Resources.can_afford`. -/
def Resources.can_afford (r cost : Resources) : Prop :=
  cost.wood ≤ r.wood ∧ cost.stone ≤ r.stone ∧ cost.iron ≤ r.iron

instance (r cost : Resources) : Decidable (r.can_afford cost) := by
  unfold Resources.can_afford; infer_instance

/-- Python `current_levels.get(b, 0)` on the parsed level map. -/
def levelOf (levels : List (String × Int)) (b : String) : Int :=
  ((levels.find? (fun p => p.1 = b)).map Prod.snd).getD 0

/-- Python `queued_counts.get(b, 0)`: occurrences of `b` in the observed queue. -/
def queuedCount (queue : List String) (b : String) : Int :=
  ((queue.filter (fun q => q = b)).length : Int)

/-- Source `BuildingManager._pick_next_building_sequential`: walk the steps in
order and return the first one whose `current + queued` level is below the
step's target, as `(building, current_level, target_level)`. -/
def pick_next_building_sequential (levels : List (String × Int))
    (queue : List String) : List BuildStep → Option (String × Int × Int)
  | [] => none
  | step :: rest =>
    let current := levelOf levels step.building
    let queued := queuedCount queue step.building
    if current + queued < step.level then some (step.building, current, step.level)
    else pick_next_building_sequential levels queue rest

/-- Inner loop of `BuildingManager._calculate_resource_wait` over the triples
`(have, need, rate)` for wood, stone, iron: skip non-deficits, return 3600 as
soon as a needed resource has no production, otherwise track the maximum
`deficit / (rate / 3600)` and finally cap at 3600. -/
def resourceWaitAux : List (Int × Int × Int) → ℚ → ℚ
  | [], maxWait => min maxWait 3600
  | t :: rest, maxWait =>
    if t.2.1 - t.1 ≤ 0 then resourceWaitAux rest maxWait
    else if t.2.2 ≤ 0 then 3600
    else resourceWaitAux rest
      (max maxWait (((t.2.1 - t.1 : Int) : ℚ) / ((t.2.2 : ℚ) / 3600)))

/-- Source `BuildingManager._calculate_resource_wait`. -/
def calculate_resource_wait (current cost production : Resources) : ℚ :=
  resourceWaitAux
    [(current.wood, cost.wood, production.wood),
     (current.stone, cost.stone, production.stone),
     (current.iron, cost.iron, production.iron)] 0

/-- Source `BuildingManager.run`, line 90: the queue size cap. The code reads
`2 if state.get("premium", False) else 2`, i.e. both branches yield 2. -/
def maxQueue (premium : Bool) : Nat :=
  if premium then 2 else 2

/-! ## managers/troop_manager.py -/

/-- Source `BARRACKS_UNITS` (models/troops.py). -/
def BARRACKS_UNITS : List String := ["spear", "sword", "axe", "archer"]

/-- Source `STABLE_UNITS` (models/troops.py). -/
def STABLE_UNITS : List String := ["spy", "light", "marcher", "heavy"]

/-- Sum of queued counts for a unit over the training-queue entries. -/
def queuedSum (queue : List (String × Int)) (u : String) : Int :=
  ((queue.filter (fun p => p.1 = u)).map Prod.snd).sum

/-- Source `TroopManager._get_barracks_needs`: for each barracks unit with a
positive target, deficit = target − (owned + queued); submit min(deficit, 50)
when positive. -/
def get_barracks_needs (targets current queue : List (String × Int)) :
    List (String × Int) :=
  BARRACKS_UNITS.filterMap (fun u =>
    let target := lookupD targets u 0
    if target ≤ 0 then none
    else
      let owned := lookupD current u 0 + queuedSum queue u
      let deficit := target - owned
      if 0 < deficit then some (u, min deficit 50) else none)

/-- Source `TroopManager._get_stable_needs`: for each stable unit with a
positive target, deficit = target − owned (the stable training queue is never
read); submit min(deficit, 25) when positive. -/
def get_stable_needs (targets current : List (String × Int)) :
    List (String × Int) :=
  STABLE_UNITS.filterMap (fun u =>
    let target := lookupD targets u 0
    if target ≤ 0 then none
    else
      let deficit := target - lookupD current u 0
      if 0 < deficit then some (u, min deficit 25) else none)

/-- Modelled from the claim's words (for comparison with the code): stable
needs with the training queue subtracted, batch min(deficit, 25). -/
def claim_stable_needs (targets current queue : List (String × Int)) :
    List (String × Int) :=
  STABLE_UNITS.filterMap (fun u =>
    let target := lookupD targets u 0
    if target ≤ 0 then none
    else
      let deficit := target - (lookupD current u 0 + queuedSum queue u)
      if 0 < deficit then some (u, min deficit 25) else none)

/-! ## core/bot_protection.py -/

/-- The mutable state of `BotProtectionMonitor` relevant to alerting. -/
structure MonitorState where
  detected : Bool
  lastAlert : ℚ
deriving DecidableEq, Repr

/-- Initial monitor state: `_detected = False`, `_last_alert_time = 0`. -/
def initMonitor : MonitorState := ⟨false, 0⟩

/-- Source `BotProtectionMonitor.on_detection` at wall-clock time `now`:
always set `detected`; send the external alert (returning `true`) only when
at least `cooldown` seconds passed since the last alert, updating
`_last_alert_time` on send. -/
def on_detection (cooldown : ℚ) (s : MonitorState) (now : ℚ) :
    MonitorState × Bool :=
  if now - s.lastAlert < cooldown then ({ s with detected := true }, false)
  else ({ detected := true, lastAlert := now }, true)

/-- Run `on_detection` over a list of call times, collecting `(time, sent)`. -/
def runDetections (cooldown : ℚ) (s : MonitorState) :
    List ℚ → List (ℚ × Bool)
  | [] => []
  | t :: ts =>
    let r := on_detection cooldown s t
    (t, r.2) :: runDetections cooldown r.1 ts

/-- The times at which an external notification was actually sent. -/
def sentTimes (cooldown : ℚ) (s : MonitorState) (ts : List ℚ) : List ℚ :=
  ((runDetections cooldown s ts).filter (fun p => p.2)).map Prod.fst

/-! ## core/panel_state.py -/

/-- A panel log entry. -/
structure LogEntry where
  timestamp : ℚ
  message : String
  level : String
deriving DecidableEq, Repr

/-- Source `PanelStateStore.add_log` acting on the stored list: append, then
keep only the last 200 entries when the cap is exceeded. -/
def add_log (logs : List LogEntry) (e : LogEntry) : List LogEntry :=
  if 200 < (logs ++ [e]).length then
    (logs ++ [e]).drop ((logs ++ [e]).length - 200)
  else logs ++ [e]

/-! ## app.py main loop wake-up computation -/

/-- Lines 437-446 of `Application._main_loop`: candidate wait events in
source order, keeping only those strictly above 30 seconds. -/
def waitEvents (scavenge buildQueue resources farming : ℚ) :
    List (String × ℚ) :=
  (if 30 < scavenge then [("scavenge", scavenge)] else []) ++
  (if 30 < buildQueue then [("build_queue", buildQueue)] else []) ++
  (if 30 < resources then [("resources", resources)] else []) ++
  (if 30 < farming then [("farming", farming)] else [])

/-- Python `min(wait_events, key=lambda x: x[1])`: first element with the
least wait (ties keep the earlier element). -/
def earliestEvent : List (String × ℚ) → Option (String × ℚ)
  | [] => none
  | x :: xs => some (xs.foldl (fun b e => if e.2 < b.2 then e else b) x)

/-- Lines 448-467: the chosen event name (if any) and the sleep delay.
`jitter` stands for the draw of `random_cycle_delay((10, 30))` and
`activeDraw` for the draw of `random_cycle_delay(active_delay)`. -/
def chooseDelay (scavenge buildQueue resources farming jitter activeDraw : ℚ) :
    Option String × ℚ :=
  match earliestEvent (waitEvents scavenge buildQueue resources farming) with
  | some (n, w) => (some n, w + jitter)
  | none => (none, activeDraw)

/-- The claim's per-resource wait expression:
`max(0, cost − have) / (production_per_hour / 3600)`. -/
def waitTerm (hav need rate : Int) : ℚ :=
  (max 0 ((need : ℚ) - (hav : ℚ))) / ((rate : ℚ) / 3600)

/-- Maximum of the per-resource wait expressions over a triple list. -/
def maxTerm : List (Int × Int × Int) → ℚ
  | [] => 0
  | t :: ts => max (waitTerm t.1 t.2.1 t.2.2) (maxTerm ts)

/-- The per-tier target carry capacity of `allocate_by_ratio` (line 111):
`total_carry * option_weights[tier] / weight_sum`. -/
def targetCarry (totalCarry : ℚ) (ow : List (Nat × ℚ)) (tier : Nat) : ℚ :=
  totalCarry * weightOf ow tier / (ow.map Prod.snd).sum

/-- Sum, over the tiers of a key list, of the amount of unit `u` that a
tier-indexed allocation map assigns. -/
def sumOver (L : List Nat) (am : Nat → List (String × Int)) (u : String) : Int :=
  (L.map (fun t => sumVal (am t) u)).sum

/-! ## Theorems -/

/-- Inserting with `add_log` always produces the last-200 suffix of the appended list. -/
lemma add_log_eq (l : List LogEntry) (e : LogEntry) :
    add_log l e = (l ++ [e]).drop ((l ++ [e]).length - 200) := by
  unfold add_log
  split_ifs with h1
  · rfl
  · have h : (l ++ [e]).length - 200 = 0 := by
      simp only [List.length_append, List.length_cons, List.length_nil] at h1 ⊢
      omega
    rw [h, List.drop_zero]

/-- The stored log list never exceeds 200 entries after an insert. -/
lemma add_log_length (l : List LogEntry) (e : LogEntry) :
    (add_log l e).length ≤ 200 := by
  unfold add_log
  split_ifs with h1
  · simp only [List.length_drop]
    omega
  · simp only [not_lt] at h1
    exact h1

/-- Folding `add_log` keeps exactly the last-200 suffix. -/
lemma foldl_add_log (msgs : List LogEntry) : ∀ l : List LogEntry, l.length ≤ 200 →
    msgs.foldl add_log l = (l ++ msgs).drop ((l ++ msgs).length - 200) := by
  induction msgs with
  | nil =>
    intro l h
    simp [Nat.sub_eq_zero_of_le h]
  | cons e ms ih =>
    intro l h
    rw [List.foldl_cons, ih (add_log l e) (add_log_length l e), add_log_eq l e]
    have hd : (l ++ [e]).length - 200 ≤ (l ++ [e]).length := Nat.sub_le _ _
    rw [← List.drop_append_of_le_length hd, List.drop_drop]
    have h2 : (l ++ [e]) ++ ms = l ++ e :: ms := by simp
    rw [h2]
    have h3 : (l ++ [e]).length - 200 +
        (((l ++ e :: ms).drop ((l ++ [e]).length - 200)).length - 200) =
        (l ++ e :: ms).length - 200 := by
      simp only [List.length_drop, List.length_append, List.length_cons,
        List.length_nil]
      omega
    rw [h3]

/-- C9: after any sequence of `add_log` insertions into the initially empty
store, at most 200 entries are kept, and they are exactly the most recent
200 in insertion order (the oldest are dropped). -/
theorem panel_log_ring_bound (msgs : List LogEntry) :
    (msgs.foldl add_log []).length ≤ 200 ∧
    msgs.foldl add_log [] = msgs.drop (msgs.length - 200) := by
  have h := foldl_add_log msgs [] (by simp)
  simp only [List.nil_append] at h
  refine ⟨?_, h⟩
  rw [h]
  simp only [List.length_drop]
  omega

/-- C6: the code's in-flight queue cap (`BuildingManager.run`, line 90) is 2
for premium and non-premium alike; at the failing input `premium = false`
the claim (and the code's own comment) demands 1, but the code yields 2. -/
theorem max_queue_premium_bug :
    maxQueue false = 2 ∧ maxQueue true = 2 ∧ maxQueue false ≠ 1 := by decide

/-- C7 counterexample: with a target of 10 light cavalry, 5 owned and 3 in
the stable training queue, the code submits a batch of 5 (it never reads the
stable queue) while the claim's formula demands min(10−5−3, 25) = 2. -/
theorem stable_needs_queue_counterexample :
    get_stable_needs [("light", 10)] [("light", 5)] = [("light", 5)] ∧
    claim_stable_needs [("light", 10)] [("light", 5)] [("light", 3)] = [("light", 2)] ∧
    ([("light", (5 : Int))] : List (String × Int)) ≠ [("light", 2)] := by decide

/-- C7 (amended): a barracks unit gets batch min(target − owned − queued, 50)
exactly when its target is positive and that deficit is positive; a stable
unit gets batch min(target − owned, 25) — the stable queue is not counted. -/
theorem troop_needs_spec (targets current queue : List (String × Int)) :
    (∀ u b, (u, b) ∈ get_barracks_needs targets current queue ↔
      (u ∈ BARRACKS_UNITS ∧ 0 < lookupD targets u 0 ∧
       0 < lookupD targets u 0 - (lookupD current u 0 + queuedSum queue u) ∧
       b = min (lookupD targets u 0 - (lookupD current u 0 + queuedSum queue u)) 50)) ∧
    (∀ u b, (u, b) ∈ get_stable_needs targets current ↔
      (u ∈ STABLE_UNITS ∧ 0 < lookupD targets u 0 ∧
       0 < lookupD targets u 0 - lookupD current u 0 ∧
       b = min (lookupD targets u 0 - lookupD current u 0) 25)) := by
  constructor
  · intro u b
    simp only [get_barracks_needs, List.mem_filterMap]
    constructor
    · rintro ⟨x, hx, hfx⟩
      split_ifs at hfx with h1 h2
      rw [Option.some_inj, Prod.mk.injEq] at hfx
      obtain ⟨rfl, hb⟩ := hfx
      exact ⟨hx, by omega, h2, hb.symm⟩
    · rintro ⟨hu, ht, hd, rfl⟩
      refine ⟨u, hu, ?_⟩
      rw [if_neg (by omega), if_pos hd]
  · intro u b
    simp only [get_stable_needs, List.mem_filterMap]
    constructor
    · rintro ⟨x, hx, hfx⟩
      split_ifs at hfx with h1 h2
      rw [Option.some_inj, Prod.mk.injEq] at hfx
      obtain ⟨rfl, hb⟩ := hfx
      exact ⟨hx, by omega, h2, hb.symm⟩
    · rintro ⟨hu, ht, hd, rfl⟩
      refine ⟨u, hu, ?_⟩
      rw [if_neg (by omega), if_pos hd]

/-- C7 witness: a concrete barracks batch predicted by the amended rule. -/
theorem troop_needs_spec_witness :
    ("spear", (50 : Int)) ∈ get_barracks_needs [("spear", 100)] [("spear", 10)] [("spear", 5)] := by
  have h := (troop_needs_spec [("spear", 100)] [("spear", 10)] [("spear", 5)]).1 "spear" 50
  exact h.mpr (by decide)

/-- C2: the sequential planner returns the first step (in declared order)
whose effective level `current + queued` is below the step target; the chosen
step satisfies `current < target`, every earlier step is effectively at or
above its target, and on steps `[(main,3),(wood,1),(stone,1)]` with levels
`{main: 1}` and queue `[main, main]` the pick is `wood`. -/
theorem sequential_pick_spec :
    (∀ (steps : List BuildStep) (levels : List (String × Int)) (queue : List String)
       (b : String) (cur tgt : Int),
      pick_next_building_sequential levels queue steps = some (b, cur, tgt) →
        cur = levelOf levels b ∧ cur < tgt ∧
        levelOf levels b + queuedCount queue b < tgt ∧
        ∃ pre post, steps = pre ++ (⟨b, tgt⟩ : BuildStep) :: post ∧
          ∀ s ∈ pre, s.level ≤ levelOf levels s.building + queuedCount queue s.building) ∧
    pick_next_building_sequential [("main", 1)] ["main", "main"]
      [⟨"main", 3⟩, ⟨"wood", 1⟩, ⟨"stone", 1⟩] = some ("wood", 0, 1) := by
  constructor
  · intro steps levels queue
    induction steps with
    | nil => intro b cur tgt h; exact absurd h (by simp [pick_next_building_sequential])
    | cons step rest ih =>
      intro b cur tgt h
      rw [pick_next_building_sequential] at h
      split_ifs at h with hc
      · rw [Option.some_inj] at h
        obtain ⟨h1, h2, h3⟩ : step.building = b ∧ levelOf levels step.building = cur ∧
            step.level = tgt := by
          simpa [Prod.ext_iff] using h
        subst h1; subst h2; subst h3
        have hq : 0 ≤ queuedCount queue step.building := Int.natCast_nonneg _
        refine ⟨rfl, by omega, hc, [], rest, by simp, by simp⟩
      · obtain ⟨e1, e2, e3, pre, post, hsteps, hpre⟩ := ih b cur tgt h
        refine ⟨e1, e2, e3, step :: pre, post, by rw [hsteps]; rfl, ?_⟩
        intro s hs
        rcases List.mem_cons.mp hs with rfl | hs'
        · omega
        · exact hpre s hs'
  · decide

/-- C2 witness: the generic characterization applied to the concrete
scenario from the spec. -/
theorem sequential_pick_spec_witness :
    (0 : Int) = levelOf [("main", 1)] "wood" ∧ (0 : Int) < 1 := by
  have h := sequential_pick_spec.1 [⟨"main", 3⟩, ⟨"wood", 1⟩, ⟨"stone", 1⟩]
    [("main", 1)] ["main", "main"] "wood" 0 1 (by decide)
  exact ⟨h.1, h.2.1⟩

/-- The aux loop never exceeds the 3600 s cap. -/
lemma resourceWaitAux_le (l : List (Int × Int × Int)) : ∀ m : ℚ,
    resourceWaitAux l m ≤ 3600 := by
  induction l with
  | nil => intro m; exact min_le_right _ _
  | cons t l ih =>
    intro m
    rw [resourceWaitAux]
    split_ifs
    · exact ih m
    · exact le_refl 3600
    · exact ih _

/-- The aux loop stays nonnegative from a nonnegative accumulator. -/
lemma resourceWaitAux_nonneg (l : List (Int × Int × Int)) : ∀ m : ℚ, 0 ≤ m →
    0 ≤ resourceWaitAux l m := by
  induction l with
  | nil => intro m hm; exact le_min hm (by norm_num)
  | cons t l ih =>
    intro m hm
    rw [resourceWaitAux]
    split_ifs
    · exact ih m hm
    · norm_num
    · exact ih _ (le_trans hm (le_max_left _ _))

/-- With no deficit anywhere the loop returns `min m 3600`. -/
lemma resourceWaitAux_afford (l : List (Int × Int × Int))
    (h : ∀ t ∈ l, t.2.1 - t.1 ≤ 0) : ∀ m : ℚ, resourceWaitAux l m = min m 3600 := by
  induction l with
  | nil => intro m; rfl
  | cons t l ih =>
    intro m
    rw [resourceWaitAux, if_pos (h t (List.mem_cons_self t l))]
    exact ih (fun x hx => h x (List.mem_cons_of_mem t hx)) m

/-- A needed resource without production forces the 3600 s cap. -/
lemma resourceWaitAux_zero_rate (l : List (Int × Int × Int))
    (h : ∃ t ∈ l, 0 < t.2.1 - t.1 ∧ t.2.2 ≤ 0) : ∀ m : ℚ,
    resourceWaitAux l m = 3600 := by
  induction l with
  | nil => exact absurd h (by simp)
  | cons t l ih =>
    intro m
    obtain ⟨x, hx, hxd, hxr⟩ := h
    rw [resourceWaitAux]
    split_ifs with h1 h2
    · rcases List.mem_cons.mp hx with rfl | hx'
      · omega
      · exact ih ⟨x, hx', hxd, hxr⟩ m
    · rfl
    · rcases List.mem_cons.mp hx with rfl | hx'
      · omega
      · exact ih ⟨x, hx', hxd, hxr⟩ _

/-- Each claim-side wait expression is nonnegative for nonnegative rates. -/
lemma waitTerm_nonneg (hav need rate : Int) (hr : 0 ≤ rate) :
    0 ≤ waitTerm hav need rate := by
  unfold waitTerm
  apply div_nonneg (le_max_left _ _)
  positivity

/-- The maximum `maxTerm` is nonnegative for nonnegative rates. -/
lemma maxTerm_nonneg (l : List (Int × Int × Int)) (h : ∀ t ∈ l, 0 ≤ t.2.2) :
    0 ≤ maxTerm l := by
  induction l with
  | nil => exact le_refl 0
  | cons t l ih =>
    rw [maxTerm]
    exact le_trans (ih (fun x hx => h x (List.mem_cons_of_mem t hx))) (le_max_right _ _)

/-- When every needed resource has positive production, the loop computes the
capped maximum of the claim's per-resource wait expressions. -/
lemma resourceWaitAux_eq (l : List (Int × Int × Int))
    (hpos : ∀ t ∈ l, 0 < t.2.1 - t.1 → 0 < t.2.2) (hr : ∀ t ∈ l, 0 ≤ t.2.2) :
    ∀ m : ℚ, 0 ≤ m → resourceWaitAux l m = min (max m (maxTerm l)) 3600 := by
  induction l with
  | nil =>
    intro m hm
    rw [resourceWaitAux, maxTerm, max_eq_left hm]
  | cons t l ih =>
    intro m hm
    have hpos' := fun x hx => hpos x (List.mem_cons_of_mem t hx)
    have hr' := fun x hx => hr x (List.mem_cons_of_mem t hx)
    have hhead := hpos t (List.mem_cons_self t l)
    have hrhead := hr t (List.mem_cons_self t l)
    rw [resourceWaitAux, maxTerm]
    split_ifs with h1 h2
    · have hterm : waitTerm t.1 t.2.1 t.2.2 = 0 := by
        unfold waitTerm
        rw [max_eq_left, zero_div]
        have h1' : ((t.2.1 - t.1 : Int) : ℚ) ≤ 0 := by exact_mod_cast h1
        push_cast at h1'
        linarith
      rw [ih hpos' hr' m hm, hterm, max_eq_right (maxTerm_nonneg l hr')]
    · exact absurd (hhead (by omega)) (by omega)
    · have hd : (0 : Int) < t.2.1 - t.1 := by omega
      have hterm : waitTerm t.1 t.2.1 t.2.2 =
          ((t.2.1 - t.1 : Int) : ℚ) / ((t.2.2 : ℚ) / 3600) := by
        unfold waitTerm
        congr 1
        have hd' : (0 : ℚ) ≤ ((t.2.1 - t.1 : Int) : ℚ) := by exact_mod_cast le_of_lt hd
        push_cast at hd' ⊢
        rw [max_eq_right hd']
      rw [ih hpos' hr' _ (le_trans hm (le_max_left _ _)), hterm, ← max_assoc]

/-- C5: the computed resource wait is always within [0, 3600]; it is 0 when
the cost is affordable; it is exactly 3600 when some needed resource has no
production; when every needed resource has positive production it equals the
maximum over resource types of `max(0, cost − have) / (rate / 3600)` capped
at 3600; and on the spec's concrete scenario it is 1000 s. -/
theorem resource_wait_spec (current cost production : Resources)
    (hw : 0 ≤ production.wood) (hs : 0 ≤ production.stone)
    (hi : 0 ≤ production.iron) :
    0 ≤ calculate_resource_wait current cost production ∧
    calculate_resource_wait current cost production ≤ 3600 ∧
    (current.can_afford cost → calculate_resource_wait current cost production = 0) ∧
    (((0 < cost.wood - current.wood ∧ production.wood = 0) ∨
      (0 < cost.stone - current.stone ∧ production.stone = 0) ∨
      (0 < cost.iron - current.iron ∧ production.iron = 0)) →
      calculate_resource_wait current cost production = 3600) ∧
    ((0 < cost.wood - current.wood → 0 < production.wood) →
     (0 < cost.stone - current.stone → 0 < production.stone) →
     (0 < cost.iron - current.iron → 0 < production.iron) →
      calculate_resource_wait current cost production =
        min (max (waitTerm current.wood cost.wood production.wood)
          (max (waitTerm current.stone cost.stone production.stone)
            (waitTerm current.iron cost.iron production.iron))) 3600) ∧
    calculate_resource_wait ⟨0, 500, 500⟩ ⟨100, 100, 100⟩ ⟨360, 360, 360⟩ = 1000 := by
  refine ⟨?_, ?_, ?_, ?_, ?_, ?_⟩
  · exact resourceWaitAux_nonneg _ 0 (le_refl 0)
  · exact resourceWaitAux_le _ 0
  · rintro ⟨haw, has, hai⟩
    unfold calculate_resource_wait
    rw [resourceWaitAux_afford]
    · norm_num
    · intro t ht
      simp only [List.mem_cons, List.not_mem_nil, or_false] at ht
      rcases ht with rfl | rfl | rfl
      exacts [sub_nonpos.mpr haw, sub_nonpos.mpr has, sub_nonpos.mpr hai]
  · intro h
    unfold calculate_resource_wait
    apply resourceWaitAux_zero_rate
    rcases h with ⟨hd, hz⟩ | ⟨hd, hz⟩ | ⟨hd, hz⟩
    · exact ⟨(current.wood, cost.wood, production.wood), by simp, hd, le_of_eq hz⟩
    · exact ⟨(current.stone, cost.stone, production.stone), by simp, hd, le_of_eq hz⟩
    · exact ⟨(current.iron, cost.iron, production.iron), by simp, hd, le_of_eq hz⟩
  · intro h1 h2 h3
    have t1 := waitTerm_nonneg current.wood cost.wood production.wood hw
    have t2 := waitTerm_nonneg current.stone cost.stone production.stone hs
    have t3 := waitTerm_nonneg current.iron cost.iron production.iron hi
    unfold calculate_resource_wait
    rw [resourceWaitAux_eq]
    · simp only [maxTerm]
      rw [max_eq_left t3, max_eq_right]
      exact le_trans t1 (le_max_left _ _)
    · intro t ht
      simp only [List.mem_cons, List.not_mem_nil, or_false] at ht
      rcases ht with rfl | rfl | rfl
      exacts [h1, h2, h3]
    · intro t ht
      simp only [List.mem_cons, List.not_mem_nil, or_false] at ht
      rcases ht with rfl | rfl | rfl
      exacts [hw, hs, hi]
    · exact le_refl 0
  · norm_num [calculate_resource_wait, resourceWaitAux, min_def, max_def]

/-- C5 witness: the spec's concrete resource-wait scenario. -/
theorem resource_wait_spec_witness :
    (0 : Int) ≤ 360 ∧
    calculate_resource_wait ⟨0, 500, 500⟩ ⟨100, 100, 100⟩ ⟨360, 360, 360⟩ = 1000 :=
  ⟨by norm_num,
    (resource_wait_spec ⟨0, 500, 500⟩ ⟨100, 100, 100⟩ ⟨360, 360, 360⟩
      (by norm_num) (by norm_num) (by norm_num)).2.2.2.2.2⟩

/-- The fold inside `earliestEvent` returns an element of the candidates. -/
lemma earliest_foldl_mem (xs : List (String × ℚ)) : ∀ x : String × ℚ,
    xs.foldl (fun b e => if e.2 < b.2 then e else b) x ∈ x :: xs := by
  induction xs with
  | nil => intro x; simp
  | cons y ys ih =>
    intro x
    rw [List.foldl_cons]
    rcases List.mem_cons.mp (ih (if y.2 < x.2 then y else x)) with h | h
    · rw [h]
      split_ifs <;> simp
    · simp [h]

/-- The fold inside `earliestEvent` returns a minimal element. -/
lemma earliest_foldl_le (xs : List (String × ℚ)) : ∀ x : String × ℚ,
    (xs.foldl (fun b e => if e.2 < b.2 then e else b) x).2 ≤ x.2 ∧
    ∀ e ∈ xs, (xs.foldl (fun b e => if e.2 < b.2 then e else b) x).2 ≤ e.2 := by
  induction xs with
  | nil => intro x; simp
  | cons y ys ih =>
    intro x
    rw [List.foldl_cons]
    obtain ⟨ih1, ih2⟩ := ih (if y.2 < x.2 then y else x)
    constructor
    · refine le_trans ih1 ?_
      split_ifs with h
      · exact le_of_lt h
      · exact le_refl _
    · intro e he
      rcases List.mem_cons.mp he with rfl | he'
      · refine le_trans ih1 ?_
        split_ifs with h
        · exact le_refl _
        · exact le_of_not_lt h
      · exact ih2 e he'

/-- Every kept wake-up candidate exceeds 30 s. -/
lemma waitEvents_gt_30 (s b r f : ℚ) :
    ∀ e ∈ waitEvents s b r f, 30 < e.2 := by
  intro e he
  simp only [waitEvents, List.mem_append] at he
  rcases he with ((h | h) | h) | h <;>
    · split_ifs at h with hc <;> simp only [List.mem_singleton, List.not_mem_nil] at h
      subst h
      exact hc

/-- C1: every candidate ≤ 30 s is discarded from the wake-up event list;
when candidates remain, the chosen event is a minimal remaining candidate and
the delay is its wait plus the `cycle_delay(10, 30)` jitter; with candidates
(600, 1200, 300, 50) the chosen event is "farming" with delay in [60, 80];
with no remaining candidate the delay is the `cycle_delay(active_delay)`
draw. -/
theorem wakeup_spec (s b r f j a : ℚ) (hj1 : 10 ≤ j) (hj2 : j ≤ 30) :
    (∀ e ∈ waitEvents s b r f, 30 < e.2) ∧
    (∀ n w, earliestEvent (waitEvents s b r f) = some (n, w) →
      ((n, w) ∈ waitEvents s b r f ∧ (∀ e ∈ waitEvents s b r f, w ≤ e.2) ∧
       chooseDelay s b r f j a = (some n, w + j))) ∧
    (waitEvents s b r f = [] → chooseDelay s b r f j a = (none, a)) ∧
    (chooseDelay 600 1200 300 50 j a = (some "farming", 50 + j) ∧
     60 ≤ 50 + j ∧ 50 + j ≤ 80) := by
  refine ⟨waitEvents_gt_30 s b r f, ?_, ?_, ?_, by linarith, by linarith⟩
  · intro n w h
    rcases hev : waitEvents s b r f with _ | ⟨x, xs⟩
    · rw [hev, earliestEvent] at h
      exact absurd h (by simp)
    · rw [hev, earliestEvent] at h
      rw [Option.some_inj] at h
      have hmem := earliest_foldl_mem xs x
      have hle := earliest_foldl_le xs x
      rw [h] at hmem hle
      refine ⟨hmem, ?_, ?_⟩
      · intro e he
        rcases List.mem_cons.mp he with rfl | he'
        · exact hle.1
        · exact hle.2 e he'
      · simp only [chooseDelay]
        rw [hev]
        simp only [earliestEvent, h]
  · intro hev
    simp only [chooseDelay]
    rw [hev]
    simp only [earliestEvent]
  · rw [chooseDelay]
    norm_num [waitEvents, earliestEvent]

/-- C1 witness: the spec's wake-up scenario with a concrete jitter draw. -/
theorem wakeup_spec_witness :
    (10 : ℚ) ≤ 20 ∧ (20 : ℚ) ≤ 30 ∧
    chooseDelay 600 1200 300 50 20 100 = (some "farming", 70) := by
  have h := (wakeup_spec 600 1200 300 50 20 100 (by norm_num) (by norm_num)).2.2.2.1
  norm_num at h ⊢
  exact h

/-- Unfolding of `sentTimes` over one call. -/
lemma sentTimes_cons (cd : ℚ) (s : MonitorState) (t : ℚ) (ts : List ℚ) :
    sentTimes cd s (t :: ts) =
      (if (on_detection cd s t).2 then [t] else []) ++
        sentTimes cd (on_detection cd s t).1 ts := by
  rw [sentTimes, runDetections]
  rcases h : (on_detection cd s t).2 with _ | _ <;>
    simp [sentTimes, List.filter_cons, h]

/-- Sent alerts are spaced by at least the cooldown, and each is at least a
cooldown after the `lastAlert` stamp of the starting state. -/
lemma sent_spaced (cd : ℚ) (hcd : 0 ≤ cd) : ∀ (times : List ℚ) (s : MonitorState),
    List.Pairwise (· ≤ ·) times → (∀ t ∈ times, s.lastAlert ≤ t) →
    List.Pairwise (fun a b => a + cd ≤ b) (sentTimes cd s times) ∧
    (∀ t' ∈ sentTimes cd s times, s.lastAlert + cd ≤ t') := by
  intro times
  induction times with
  | nil => intro s _ _; constructor <;> simp [sentTimes, runDetections]
  | cons t ts ih =>
    intro s hsort hafter
    have hsort' := (List.pairwise_cons.mp hsort).2
    have hhead := (List.pairwise_cons.mp hsort).1
    rw [sentTimes_cons]
    by_cases hsend : t - s.lastAlert < cd
    · have hres : on_detection cd s t = ({ s with detected := true }, false) := by
        rw [on_detection, if_pos hsend]
      rw [hres]
      simp only [Bool.false_eq_true, if_false, List.nil_append]
      exact ih { s with detected := true } hsort'
        (fun x hx => hafter x (List.mem_cons_of_mem t hx))
    · have hres : on_detection cd s t = ({ detected := true, lastAlert := t }, true) := by
        rw [on_detection, if_neg hsend]
      rw [hres]
      simp only [if_true, List.singleton_append]
      have hafter' : ∀ x ∈ ts, ({ detected := true, lastAlert := t } : MonitorState).lastAlert ≤ x :=
        fun x hx => hhead x hx
      obtain ⟨ihp, ihf⟩ := ih { detected := true, lastAlert := t } hsort' hafter'
      constructor
      · rw [List.pairwise_cons]
        exact ⟨fun t' ht' => ihf t' ht', ihp⟩
      · intro t' ht'
        rcases List.mem_cons.mp ht' with rfl | ht''
        · linarith [not_lt.mp hsend]
        · have := ihf t' ht''
          have := hafter t (List.mem_cons_self t ts)
          simp only at this ⊢
          linarith [ihf t' ht'']

/-- C8: `on_detection` always latches `detected`; the external notification
is attempted exactly when at least `alert_cooldown` seconds passed since the
last alert (whose timestamp is then updated); consequently, over any
chronologically ordered sequence of detection calls starting from the fresh
monitor, any two sent notifications are at least `alert_cooldown` apart. -/
theorem on_detection_throttle (cd : ℚ) (hcd : 0 ≤ cd) (times : List ℚ)
    (hsort : List.Pairwise (· ≤ ·) times) (h0 : ∀ t ∈ times, 0 ≤ t) :
    (∀ (s : MonitorState) (now : ℚ), ((on_detection cd s now).1).detected = true) ∧
    (∀ (s : MonitorState) (now : ℚ),
      (on_detection cd s now).2 = true ↔ cd ≤ now - s.lastAlert) ∧
    List.Pairwise (fun a b => a + cd ≤ b) (sentTimes cd initMonitor times) := by
  refine ⟨?_, ?_, ?_⟩
  · intro s now
    rw [on_detection]
    split_ifs <;> rfl
  · intro s now
    rw [on_detection]
    split_ifs with h
    · simp only [Bool.false_eq_true, false_iff, not_le]
      exact h
    · simp only [true_iff]
      exact not_lt.mp h
  · exact (sent_spaced cd hcd times initMonitor hsort h0).1

/-- C8 witness: three detections at 1000 s, 1100 s, 1400 s with a 300 s
cooldown; alerts go out at 1000 s and 1400 s, 400 s ≥ 300 s apart. -/
theorem on_detection_throttle_witness :
    (0 : ℚ) ≤ 300 ∧
    sentTimes 300 initMonitor [1000, 1100, 1400] = [1000, 1400] ∧
    List.Pairwise (fun a b => a + 300 ≤ b) (sentTimes 300 initMonitor [1000, 1100, 1400]) := by
  refine ⟨by norm_num, ?_, ?_⟩
  · norm_num [sentTimes_cons, on_detection, initMonitor, sentTimes, runDetections]
  · exact (on_detection_throttle 300 (by norm_num) [1000, 1100, 1400]
      (by norm_num [List.pairwise_cons]) (by norm_num [List.mem_cons])).2.2

/-- Updating with `setKey` preserves the key sequence. -/
lemma keys_setKey (m : List (String × Int)) (u : String) (v : Int) :
    (setKey m u v).map Prod.fst = m.map Prod.fst := by
  unfold setKey
  rw [List.map_map]
  apply List.map_congr_left
  intro p _
  by_cases h : p.1 = u <;> simp [h]

/-- A key with positive stored value occurs in the key sequence. -/
lemma lookupD_pos_mem (m : List (String × Int)) (u : String)
    (h : ¬ lookupD m u 0 ≤ 0) : u ∈ m.map Prod.fst := by
  unfold lookupD at h
  rcases hf : m.find? (fun p => p.1 = u) with _ | p
  · rw [hf] at h
    simp at h
  · have hp := List.find?_some hf
    have hm := List.mem_of_find?_eq_some hf
    simp only [decide_eq_true_eq] at hp
    exact hp ▸ List.mem_map_of_mem Prod.fst hm

/-- Updating a present key stores the new value. -/
lemma lookupD_setKey_self (m : List (String × Int)) (u : String) (v d : Int)
    (h : u ∈ m.map Prod.fst) : lookupD (setKey m u v) u d = v := by
  induction m with
  | nil => simp at h
  | cons p rest ih =>
    by_cases hp : p.1 = u
    · unfold setKey lookupD
      simp only [List.map_cons, if_pos hp, List.find?_cons_eq_some]
      rw [List.find?_cons_of_pos]
      · rfl
      · simp [hp]
    · have h' : u ∈ rest.map Prod.fst := by
        rcases List.mem_cons.mp (List.map_cons Prod.fst p rest ▸ h) with h1 | h1
        · exact absurd h1.symm hp
        · exact h1
      unfold setKey lookupD
      simp only [List.map_cons, if_neg hp]
      rw [List.find?_cons_of_neg]
      · exact ih h'
      · simp [hp]

/-- Unfolding of `sumVal` over a cons cell. -/
lemma sumVal_cons (p : String × Int) (rest : List (String × Int)) (u : String) :
    sumVal (p :: rest) u = (if p.1 = u then p.2 else 0) + sumVal rest u := by
  unfold sumVal
  rw [List.map_cons, List.sum_cons]

/-- Updating one key leaves other lookups unchanged. -/
lemma lookupD_setKey_ne (m : List (String × Int)) (u u' : String) (v d : Int)
    (h : u' ≠ u) : lookupD (setKey m u v) u' d = lookupD m u' d := by
  induction m with
  | nil => rfl
  | cons p rest ih =>
    by_cases hp : p.1 = u
    · unfold setKey lookupD
      simp only [List.map_cons, if_pos hp]
      rw [List.find?_cons_of_neg, List.find?_cons_of_neg]
      · exact ih
      · simp only [decide_eq_true_eq]
        exact fun hh => h (hh.symm.trans hp)
      · simp only [decide_eq_true_eq]
        exact fun hh => h (hh.symm.trans hp)
    · unfold setKey lookupD
      simp only [List.map_cons, if_neg hp]
      by_cases hq : p.1 = u'
      · rw [List.find?_cons_of_pos, List.find?_cons_of_pos] <;> simp [hq]
      · rw [List.find?_cons_of_neg, List.find?_cons_of_neg]
        · exact ih
        · simp [hq]
        · simp [hq]

/-- Updating with `setKey` keeps all values nonnegative when the new value is. -/
lemma setKey_nonneg (m : List (String × Int)) (u : String) (v : Int)
    (hm : ∀ p ∈ m, 0 ≤ p.2) (hv : 0 ≤ v) : ∀ p ∈ setKey m u v, 0 ≤ p.2 := by
  intro p hp
  unfold setKey at hp
  obtain ⟨q, hq, hpq⟩ := List.mem_map.mp hp
  by_cases h : q.1 = u
  · rw [if_pos h] at hpq
    rw [← hpq]
    exact hv
  · rw [if_neg h] at hpq
    exact hpq ▸ hm q hq

/-- The total `sumVal` splits over appends. -/
lemma sumVal_append (a b : List (String × Int)) (u : String) :
    sumVal (a ++ b) u = sumVal a u + sumVal b u := by
  unfold sumVal
  rw [List.map_append, List.sum_append]

/-- The total `sumVal` of a single entry. -/
lemma sumVal_singleton (u' : String) (v : Int) (u : String) :
    sumVal [(u', v)] u = if u' = u then v else 0 := by
  unfold sumVal
  simp

/-- A key outside the key sequence has `sumVal` 0. -/
lemma sumVal_eq_zero_of_not_mem (m : List (String × Int)) (u : String)
    (h : u ∉ m.map Prod.fst) : sumVal m u = 0 := by
  induction m with
  | nil => rfl
  | cons p rest ih =>
    simp only [List.map_cons, List.mem_cons, not_or] at h
    rw [sumVal_cons, if_neg (fun hh => h.1 hh.symm), zero_add]
    exact ih (by simpa using h.2)

/-- A key outside the key sequence looks up to the default 0. -/
lemma lookupD_eq_zero_of_not_mem (m : List (String × Int)) (u : String)
    (h : u ∉ m.map Prod.fst) : lookupD m u 0 = 0 := by
  unfold lookupD
  rcases hf : m.find? (fun p => p.1 = u) with _ | p
  · rw [hf]
    rfl
  · have hp := List.find?_some hf
    have hm := List.mem_of_find?_eq_some hf
    simp only [decide_eq_true_eq] at hp
    exact absurd (hp ▸ List.mem_map_of_mem Prod.fst hm) h

/-- Lookup with `lookupD` returns the stored value of the head key. -/
lemma lookupD_cons_self (p : String × Int) (rest : List (String × Int)) :
    lookupD (p :: rest) p.1 0 = p.2 := by
  unfold lookupD
  rw [List.find?_cons_of_pos]
  · rfl
  · simp

/-- Lookup with `lookupD` skips a head with a different key. -/
lemma lookupD_cons_ne (p : String × Int) (rest : List (String × Int)) (u : String)
    (h : p.1 ≠ u) : lookupD (p :: rest) u 0 = lookupD rest u 0 := by
  unfold lookupD
  rw [List.find?_cons_of_neg]
  simp [h]

/-- Restricting a nonnegative distinct-key dict to its positive entries keeps
exactly the looked-up amount of every key. -/
lemma sumVal_filter_pos (m : List (String × Int))
    (hk : (m.map Prod.fst).Nodup) (hm : ∀ p ∈ m, 0 ≤ p.2) (u : String) :
    sumVal (m.filter (fun p => decide (0 < p.2))) u = lookupD m u 0 := by
  induction m with
  | nil => rfl
  | cons p rest ih =>
    have hk' := (List.nodup_cons.mp (List.map_cons Prod.fst p rest ▸ hk)).2
    have hknot := (List.nodup_cons.mp (List.map_cons Prod.fst p rest ▸ hk)).1
    have hm' := fun x hx => hm x (List.mem_cons_of_mem p hx)
    by_cases hu : p.1 = u
    · subst hu
      rw [lookupD_cons_self]
      have hzero : sumVal (rest.filter (fun q => decide (0 < q.2))) p.1 = 0 := by
        apply sumVal_eq_zero_of_not_mem
        intro hmem
        obtain ⟨q, hq, hq1⟩ := List.mem_map.mp hmem
        exact hknot (hq1 ▸ List.mem_map_of_mem Prod.fst (List.mem_of_mem_filter hq))
      rcases lt_or_eq_of_le (hm p (List.mem_cons_self p rest)) with hpos | heq
      · rw [List.filter_cons_of_pos (by simpa using hpos), sumVal_cons, if_pos rfl,
          hzero, add_zero]
      · rw [List.filter_cons_of_neg (by simp [← heq]), hzero, ← heq]
    · rw [lookupD_cons_ne p rest u hu]
      by_cases hpos : (0 : Int) < p.2
      · rw [List.filter_cons_of_pos (by simpa using hpos), sumVal_cons, if_neg hu,
          zero_add]
        exact ih hk' hm'
      · rw [List.filter_cons_of_neg (by simpa using hpos)]
        exact ih hk' hm'

/-- The greedy per-tier fill preserves the key sequence, keeps remaining
counts nonnegative, and moves troops without creating or losing any:
for every unit the remaining count plus the allocated amount is invariant. -/
lemma fillUnits_spec (carries : List (String × Int)) (target : ℚ) :
    ∀ (units : List String) (rem al : List (String × Int)) (f : ℚ),
    (rem.map Prod.fst).Nodup → (∀ p ∈ rem, 0 ≤ p.2) →
    ((fillUnits carries target units rem al f).1.map Prod.fst = rem.map Prod.fst ∧
     (∀ p ∈ (fillUnits carries target units rem al f).1, 0 ≤ p.2) ∧
     ∀ u, lookupD (fillUnits carries target units rem al f).1 u 0 +
        sumVal (fillUnits carries target units rem al f).2 u =
        lookupD rem u 0 + sumVal al u) := by
  intro units
  induction units with
  | nil =>
    intro rem al f hn hp
    exact ⟨rfl, hp, fun u => rfl⟩
  | cons u rest ih =>
    intro rem al f hn hp
    simp only [fillUnits]
    split_ifs with h1 h2 h3 h4
    · exact ih rem al f hn hp
    · exact ih rem al f hn hp
    · exact ⟨rfl, hp, fun u => rfl⟩
    · have humem : u ∈ rem.map Prod.fst := lookupD_pos_mem rem u h1
      have htake_le : min (lookupD rem u 0)
          ⌊(target - f) / ((carryOf carries u : Int) : ℚ)⌋ ≤ lookupD rem u 0 :=
        min_le_left _ _
      have hkeys := keys_setKey rem u (lookupD rem u 0 -
        min (lookupD rem u 0) ⌊(target - f) / ((carryOf carries u : Int) : ℚ)⌋)
      obtain ⟨ihk, ihp, ihs⟩ := ih
        (setKey rem u (lookupD rem u 0 -
          min (lookupD rem u 0) ⌊(target - f) / ((carryOf carries u : Int) : ℚ)⌋))
        (al ++ [(u, min (lookupD rem u 0)
          ⌊(target - f) / ((carryOf carries u : Int) : ℚ)⌋)])
        (f + ((min (lookupD rem u 0)
          ⌊(target - f) / ((carryOf carries u : Int) : ℚ)⌋ : Int) : ℚ) *
          ((carryOf carries u : Int) : ℚ))
        (hkeys ▸ hn)
        (setKey_nonneg rem u _ hp (by omega))
      refine ⟨ihk.trans hkeys, ihp, ?_⟩
      intro u'
      rw [ihs u']
      by_cases hu : u' = u
      · subst hu
        rw [lookupD_setKey_self rem u' _ 0 humem, sumVal_append, sumVal_singleton,
          if_pos rfl]
        omega
      · rw [lookupD_setKey_ne rem u u' _ 0 hu, sumVal_append, sumVal_singleton,
          if_neg (fun hh => hu hh.symm)]
        omega
    · exact ih rem al f hn hp

/-- The total `sumOver` of the everywhere-empty allocation map is 0. -/
lemma sumOver_empty (L : List Nat) (u : String) :
    sumOver L (fun _ => []) u = 0 := by
  simp [sumOver, sumVal]

/-- Updating one tier of an allocation map shifts `sumOver` by the
difference at that tier (keys assumed distinct). -/
lemma sumOver_update (tier : Nat) (am : Nat → List (String × Int))
    (al : List (String × Int)) (u : String) :
    ∀ L : List Nat, L.Nodup → tier ∈ L →
    sumOver L (fun t => if t = tier then al else am t) u =
      sumOver L am u + sumVal al u - sumVal (am tier) u := by
  intro L
  induction L with
  | nil => intro _ ht; simp at ht
  | cons x xs ih =>
    intro hL ht
    have hxs := (List.nodup_cons.mp hL).2
    have hxnot := (List.nodup_cons.mp hL).1
    simp only [sumOver, List.map_cons, List.sum_cons]
    rcases List.mem_cons.mp ht with rfl | ht'
    · rw [if_pos rfl]
      have hcongr : (xs.map (fun t => sumVal (if t = tier then al else am t) u)).sum =
          (xs.map (fun t => sumVal (am t) u)).sum := by
        refine congrArg List.sum (List.map_congr_left (fun t htx => ?_))
        have hne : t ≠ tier := fun hh => hxnot (hh ▸ htx)
        rw [if_neg hne]
      rw [hcongr]
      omega
    · have hxne : x ≠ tier := fun hh => hxnot (hh ▸ ht')
      rw [if_neg hxne]
      have hih := ih hxs ht'
      simp only [sumOver] at hih
      omega

/-- The tier loop of `allocate_by_ratio`, written out. -/
lemma fillStep_eq (carries : List (String × Int)) (tc ws : ℚ)
    (ow : List (Nat × ℚ)) (acc : List (String × Int) × (Nat → List (String × Int)))
    (tier : Nat) :
    fillStep carries tc ws ow acc tier =
      ((fillUnits carries (tc * weightOf ow tier / ws)
          (sortByCarryDesc carries (acc.1.map Prod.fst)) acc.1 [] 0).1,
       fun t => if t = tier then
          (fillUnits carries (tc * weightOf ow tier / ws)
            (sortByCarryDesc carries (acc.1.map Prod.fst)) acc.1 [] 0).2
        else acc.2 t) := rfl

/-- Folding the tier loop over distinct tiers preserves the pool keys and
nonnegativity, conserves every unit between the remaining pool and the
per-tier allocations, and leaves untouched tiers empty. -/
lemma foldFill_spec (carries : List (String × Int)) (tc ws : ℚ)
    (ow : List (Nat × ℚ)) (L : List Nat) (hL : L.Nodup) :
    ∀ (ts : List Nat), ts.Nodup → (∀ t ∈ ts, t ∈ L) →
    ∀ (rem : List (String × Int)) (am : Nat → List (String × Int)),
    (∀ t ∈ ts, am t = []) →
    (rem.map Prod.fst).Nodup → (∀ p ∈ rem, 0 ≤ p.2) →
    ((ts.foldl (fillStep carries tc ws ow) (rem, am)).1.map Prod.fst =
        rem.map Prod.fst ∧
     (∀ p ∈ (ts.foldl (fillStep carries tc ws ow) (rem, am)).1, 0 ≤ p.2) ∧
     (∀ u, lookupD (ts.foldl (fillStep carries tc ws ow) (rem, am)).1 u 0 +
        sumOver L (ts.foldl (fillStep carries tc ws ow) (rem, am)).2 u =
        lookupD rem u 0 + sumOver L am u) ∧
     (∀ t, t ∉ ts → (ts.foldl (fillStep carries tc ws ow) (rem, am)).2 t = am t)) := by
  intro ts
  induction ts with
  | nil =>
    intro _ _ rem am _ hn hp
    exact ⟨rfl, hp, fun u => rfl, fun t _ => rfl⟩
  | cons tier ts' ih =>
    intro hnd hsub rem am ham hn hp
    have hnd' := (List.nodup_cons.mp hnd).2
    have htnot := (List.nodup_cons.mp hnd).1
    obtain ⟨hfk, hfp, hfs⟩ := fillUnits_spec carries (tc * weightOf ow tier / ws)
      (sortByCarryDesc carries (rem.map Prod.fst)) rem [] 0 hn hp
    rw [List.foldl_cons, fillStep_eq]
    obtain ⟨ihk, ihp, ihs, ihf⟩ := ih hnd'
      (fun t ht => hsub t (List.mem_cons_of_mem tier ht))
      (fillUnits carries (tc * weightOf ow tier / ws)
        (sortByCarryDesc carries (rem.map Prod.fst)) rem [] 0).1
      (fun t => if t = tier then
          (fillUnits carries (tc * weightOf ow tier / ws)
            (sortByCarryDesc carries (rem.map Prod.fst)) rem [] 0).2
        else am t)
      (fun t ht => by
        have h1 : t ≠ tier := fun hh => htnot (hh ▸ ht)
        show (if t = tier then _ else am t) = []
        rw [if_neg h1]
        exact ham t (List.mem_cons_of_mem tier ht))
      (by rw [hfk]; exact hn) hfp
    refine ⟨ihk.trans hfk, ihp, ?_, ?_⟩
    · intro u
      rw [ihs u, sumOver_update tier am _ u L hL
        (hsub tier (List.mem_cons_self tier ts'))]
      have hfu := hfs u
      have hamt : am tier = [] := ham tier (List.mem_cons_self tier ts')
      rw [hamt]
      have hnil : sumVal ([] : List (String × Int)) u = 0 := rfl
      rw [hnil] at hfu ⊢
      omega
    · intro t htn
      have h1 : t ∉ ts' := fun hh => htn (List.mem_cons_of_mem tier hh)
      have h2 : t ≠ tier := fun hh => htn (hh ▸ List.mem_cons_self tier ts')
      rw [ihf t h1]
      show (if t = tier then _ else am t) = am t
      rw [if_neg h2]

/-- Descending insertion permutes. -/
lemma insertNatDesc_perm (x : Nat) (l : List Nat) :
    List.Perm (insertNatDesc x l) (x :: l) := by
  induction l with
  | nil => exact List.Perm.refl _
  | cons y ys ih =>
    rw [insertNatDesc]
    split_ifs
    · exact List.Perm.refl _
    · exact (List.Perm.cons y ih).trans (List.Perm.swap x y ys)

/-- Sorting with `sortNatDesc` permutes its input. -/
lemma sortNatDesc_perm (l : List Nat) : List.Perm (sortNatDesc l) l := by
  induction l with
  | nil => exact List.Perm.refl _
  | cons x xs ih =>
    rw [sortNatDesc]
    exact (insertNatDesc_perm x (sortNatDesc xs)).trans (List.Perm.cons x ih)

/-- Unfolding of `tierSum` over a cons cell. -/
lemma tierSum_cons (p : Nat × List (String × Int))
    (rest : List (Nat × List (String × Int))) (u : String) :
    tierSum (p :: rest) u = sumVal p.2 u + tierSum rest u := by
  unfold tierSum
  rw [List.map_cons, List.sum_cons]

/-- Dropping empty tiers from a tier-indexed map does not change the total
allocated amount of any unit. -/
lemma tierSum_filterMap (ow : List (Nat × ℚ)) (g : Nat → List (String × Int))
    (u : String) :
    tierSum (ow.filterMap (fun p =>
      if (g p.1).isEmpty then none else some (p.1, g p.1))) u =
      sumOver (ow.map Prod.fst) g u := by
  induction ow with
  | nil => rfl
  | cons p rest ih =>
    simp only [sumOver, List.map_cons, List.sum_cons]
    by_cases hemp : (g p.1).isEmpty = true
    · rw [List.filterMap_cons_none (by simp [hemp]), ih]
      have hnil : g p.1 = [] := List.isEmpty_iff.mp hemp
      rw [hnil]
      have : sumVal ([] : List (String × Int)) u = 0 := rfl
      rw [this, zero_add]
      rfl
    · have hsome : (fun q : Nat × ℚ =>
          if (g q.1).isEmpty then none else some (q.1, g q.1)) p =
            some (p.1, g p.1) := by simp [hemp]
      rw [@List.filterMap_cons_some (Nat × ℚ) (Nat × List (String × Int))
        (fun q => if (g q.1).isEmpty then none else some (q.1, g q.1))
        p rest (p.1, g p.1) hsome, tierSum_cons, ih]
      rfl

/-- Every pool entry has a positive count. -/
lemma scavengePool_pos (available : List (String × Int)) :
    ∀ p ∈ scavengePool available, 0 < p.2 := by
  intro p hp
  have := List.of_mem_filter hp
  simp only [Bool.and_eq_true, decide_eq_true_eq] at this
  exact this.2

/-- The pool keys stay distinct when the available keys are. -/
lemma scavengePool_nodup (available : List (String × Int))
    (h : (available.map Prod.fst).Nodup) :
    ((scavengePool available).map Prod.fst).Nodup :=
  ((List.filter_sublist available).map Prod.fst).nodup h

/-- C3: scavenge allocation wastes no troops — whenever the weights have a
positive sum and the filtered pool has positive total carry, the amounts a
unit receives across all returned tiers add up exactly to its pool count. -/
theorem allocate_by_ratio_zero_waste (available : List (String × Int))
    (ow : List (Nat × ℚ)) (uc : List (String × Int)) (u : String)
    (hka : (available.map Prod.fst).Nodup) (hkt : (ow.map Prod.fst).Nodup)
    (hw : 0 < (ow.map Prod.snd).sum)
    (hc : 0 < poolTotalCarry (scavengePool available) uc) :
    tierSum (allocate_by_ratio available ow uc) u =
      lookupD (scavengePool available) u 0 := by
  have hpoolpos := scavengePool_pos available
  have hpoolnn : ∀ p ∈ scavengePool available, 0 ≤ p.2 :=
    fun p hp => le_of_lt (hpoolpos p hp)
  have hpoolnodup := scavengePool_nodup available hka
  have hne : (scavengePool available).isEmpty = false := by
    cases hie : (scavengePool available).isEmpty
    · rfl
    · have h0 : scavengePool available = [] := List.isEmpty_iff.mp hie
      rw [h0] at hc
      exact absurd hc (by norm_num [poolTotalCarry])
  have howne : ow ≠ [] := by
    intro h
    rw [h] at hw
    simp at hw
  obtain ⟨dt, hdt⟩ : ∃ m, (ow.map Prod.fst).min? = some m := by
    rcases h : ow.map Prod.fst with _ | ⟨x, xs⟩
    · exact absurd (List.map_eq_nil_iff.mp h) howne
    · exact ⟨_, List.min?_cons⟩
  have hdtm : dt ∈ ow.map Prod.fst := List.min?_mem (fun a b => min_choice a b) hdt
  have hfo_nodup : ((sortNatDesc (ow.map Prod.fst)).filter
      (fun t => decide (t ≠ dt))).Nodup :=
    ((sortNatDesc_perm (ow.map Prod.fst)).nodup_iff.mpr hkt).filter _
  have hfo_sub : ∀ t ∈ (sortNatDesc (ow.map Prod.fst)).filter
      (fun t => decide (t ≠ dt)), t ∈ ow.map Prod.fst :=
    fun t ht => (sortNatDesc_perm (ow.map Prod.fst)).mem_iff.mp
      (List.mem_of_mem_filter ht)
  have hdt_notin_fo : dt ∉ (sortNatDesc (ow.map Prod.fst)).filter
      (fun t => decide (t ≠ dt)) := by
    intro h
    have := List.of_mem_filter h
    simp at this
  obtain ⟨hk, hpos, hsum, hempty⟩ := foldFill_spec uc
    (poolTotalCarry (scavengePool available) uc) ((ow.map Prod.snd).sum) ow
    (ow.map Prod.fst) hkt
    ((sortNatDesc (ow.map Prod.fst)).filter (fun t => decide (t ≠ dt)))
    hfo_nodup hfo_sub (scavengePool available) (fun _ => []) (fun _ _ => rfl)
    hpoolnodup hpoolnn
  simp only [allocate_by_ratio]
  rw [if_neg (not_le.mpr hw), if_neg (by simp [hne]), if_neg (not_le.mpr hc), hdt,
    Option.getD_some]
  have heq := tierSum_filterMap ow (fun t =>
    if t = dt then
      (((sortNatDesc (ow.map Prod.fst)).filter (fun t => decide (t ≠ dt))).foldl
        (fillStep uc (poolTotalCarry (scavengePool available) uc)
          ((ow.map Prod.snd).sum) ow)
        (scavengePool available, fun _ => [])).1.filter (fun p => decide (0 < p.2))
    else
      (((sortNatDesc (ow.map Prod.fst)).filter (fun t => decide (t ≠ dt))).foldl
        (fillStep uc (poolTotalCarry (scavengePool available) uc)
          ((ow.map Prod.snd).sum) ow)
        (scavengePool available, fun _ => [])).2 t) u
  rw [heq]
  rw [sumOver_update dt _ _ u (ow.map Prod.fst) hkt hdtm]
  rw [hempty dt hdt_notin_fo]
  have hnil : sumVal ([] : List (String × Int)) u = 0 := rfl
  rw [hnil]
  rw [sumVal_filter_pos _ (by rw [hk]; exact hpoolnodup) hpos u]
  have hs := hsum u
  rw [sumOver_empty] at hs
  omega

/-- C3 witness: the spec's own scenario — 1000 spears over tiers 1 and 2 end
up fully allocated (715 + 285). -/
theorem allocate_by_ratio_zero_waste_witness :
    (0 : ℚ) < (([(1, 10), (2, 4)] : List (Nat × ℚ)).map Prod.snd).sum ∧
    tierSum (allocate_by_ratio [("spear", 1000)] [(1, 10), (2, 4)]
      [("spear", 25)]) "spear" = 1000 := by
  constructor
  · norm_num
  · have h := allocate_by_ratio_zero_waste [("spear", 1000)] [(1, 10), (2, 4)]
      [("spear", 25)] "spear" (by decide) (by decide) (by norm_num)
      (by norm_num [poolTotalCarry, scavengePool, carryOf, SCAVENGE_UNITS])
    rw [h]
    decide

/-- C10: with a single positive-weight tier the greedy fill loop is skipped
(the only tier is the dump tier) and the whole filtered pool is returned for
that tier unchanged. -/
theorem allocate_single_tier (available uc : List (String × Int)) (t : Nat)
    (w : ℚ) (hw : 0 < w)
    (hc : 0 < poolTotalCarry (scavengePool available) uc) :
    allocate_by_ratio available [(t, w)] uc = [(t, scavengePool available)] := by
  have hne : (scavengePool available).isEmpty = false := by
    cases hie : (scavengePool available).isEmpty
    · rfl
    · have h0 : scavengePool available = [] := List.isEmpty_iff.mp hie
      rw [h0] at hc
      exact absurd hc (by norm_num [poolTotalCarry])
  have hfilter : (scavengePool available).filter (fun p => decide (0 < p.2)) =
      scavengePool available :=
    List.filter_eq_self.mpr (fun p hp => by
      simpa using scavengePool_pos available p hp)
  simp only [allocate_by_ratio]
  rw [if_neg (by simp; linarith), if_neg (by simp [hne]), if_neg (not_le.mpr hc)]
  have hmin : (([(t, w)] : List (Nat × ℚ)).map Prod.fst).min? = some t := rfl
  rw [hmin, Option.getD_some]
  have hsort : sortNatDesc (([(t, w)] : List (Nat × ℚ)).map Prod.fst) = [t] := rfl
  rw [hsort]
  have hfo : ([t] : List Nat).filter (fun x => decide (x ≠ t)) = [] := by simp
  rw [hfo]
  rw [List.foldl_nil]
  simp only [List.filterMap_cons, List.filterMap_nil, if_true, hfilter]
  simp [hne]

/-- C10 witness: one tier, whole pool dumped there. -/
theorem allocate_single_tier_witness :
    (0 : ℚ) < 5 ∧
    allocate_by_ratio [("spear", 7)] [(2, 5)] [("spear", 25)] =
      [(2, [("spear", 7)])] := by
  constructor
  · norm_num
  · have h := allocate_single_tier [("spear", 7)] [("spear", 25)] 2 5
      (by norm_num) (by norm_num [poolTotalCarry, scavengePool, carryOf, SCAVENGE_UNITS])
    rw [h]
    decide

/-- Looking up a key whose every occurrence carries value `v` yields `v`. -/
lemma weightOf_of_forall (l : List (Nat × ℚ)) (t : Nat) (v : ℚ)
    (hall : ∀ p ∈ l, p.1 = t → p.2 = v) (hmem : t ∈ l.map Prod.fst) :
    weightOf l t = v := by
  induction l with
  | nil => simp at hmem
  | cons p rest ih =>
    by_cases hp : p.1 = t
    · unfold weightOf
      rw [List.find?_cons_of_pos _ (by simp [hp])]
      simpa using hall p (List.mem_cons_self p rest) hp
    · unfold weightOf
      rw [List.find?_cons_of_neg _ (by simp [hp])]
      have hmem' : t ∈ rest.map Prod.fst := by
        rcases List.mem_cons.mp (List.map_cons Prod.fst p rest ▸ hmem) with h1 | h1
        · exact absurd h1.symm hp
        · exact h1
      exact ih (fun q hq => hall q (List.mem_cons_of_mem p hq)) hmem'

/-- Every loot ratio (including the default) is positive. -/
lemma lootRatio_pos (t : Nat) : 0 < lootRatio t := by
  unfold lootRatio
  rcases h : LOOT_RATIOS.find? (fun p => p.1 = t) with _ | p
  · rw [h]
    norm_num
  · rw [h]
    have hm := List.mem_of_find?_eq_some h
    simp only [LOOT_RATIOS, List.mem_cons, List.not_mem_nil, or_false] at hm
    rcases hm with rfl | rfl | rfl | rfl <;> norm_num

/-- The map `equal_runtime_weights` assigns `1 / loot_ratio` to each known tier. -/
lemma weightOf_equal_runtime (active : List Nat) (t : Nat)
    (ht : t ∈ active) (hr : t ∈ LOOT_RATIOS.map Prod.fst) :
    weightOf (equal_runtime_weights active) t = 1 / lootRatio t := by
  apply weightOf_of_forall
  · intro p hp hpt
    obtain ⟨x, hx, hfx⟩ := List.mem_filterMap.mp hp
    split_ifs at hfx with hcont
    · rw [Option.some_inj] at hfx
      have hfst : x = p.1 := by
        have := congrArg Prod.fst hfx
        simpa using this
      have hsnd : 1 / lootRatio x = p.2 := by
        have := congrArg Prod.snd hfx
        simpa using this
      rw [← hsnd, hfst.trans hpt]
  · have hcont : (LOOT_RATIOS.map Prod.fst).contains t = true :=
      List.elem_eq_true_of_mem hr
    have hment : (t, 1 / lootRatio t) ∈ equal_runtime_weights active :=
      List.mem_filterMap.mpr ⟨t, ht, by rw [if_pos hcont]⟩
    exact List.mem_map_of_mem Prod.fst hment

/-- C4 (amended): `equal_runtime_weights` maps every active known tier `t` to
weight `1/loot_ratio(t)`, and the per-tier *target* carries of
`allocate_by_ratio` (line 111) then satisfy `target(t₁)·r₁ = target(t₂)·r₂`
exactly; the greedy integer fill may miss these targets by more than one
unit-carry quantum (see the counterexample). -/
theorem equal_runtime_target_spec (active : List Nat) (total : ℚ) (t1 t2 : Nat)
    (h1 : t1 ∈ active) (h2 : t2 ∈ active)
    (hr1 : t1 ∈ LOOT_RATIOS.map Prod.fst) (hr2 : t2 ∈ LOOT_RATIOS.map Prod.fst) :
    weightOf (equal_runtime_weights active) t1 = 1 / lootRatio t1 ∧
    weightOf (equal_runtime_weights active) t2 = 1 / lootRatio t2 ∧
    targetCarry total (equal_runtime_weights active) t1 * lootRatio t1 =
      targetCarry total (equal_runtime_weights active) t2 * lootRatio t2 := by
  have hw1 := weightOf_equal_runtime active t1 h1 hr1
  have hw2 := weightOf_equal_runtime active t2 h2 hr2
  refine ⟨hw1, hw2, ?_⟩
  unfold targetCarry
  rw [hw1, hw2, div_mul_eq_mul_div, div_mul_eq_mul_div]
  congr 1
  rw [mul_assoc, one_div_mul_cancel (ne_of_gt (lootRatio_pos t1)), mul_one,
    mul_assoc, one_div_mul_cancel (ne_of_gt (lootRatio_pos t2)), mul_one]

/-- C4 witness: tiers 1 and 4 of the weight set `{1,2,3,4}`. -/
theorem equal_runtime_target_spec_witness :
    targetCarry 2586 (equal_runtime_weights [1, 2, 3, 4]) 1 * lootRatio 1 =
      targetCarry 2586 (equal_runtime_weights [1, 2, 3, 4]) 4 * lootRatio 4 :=
  (equal_runtime_target_spec [1, 2, 3, 4] 2586 1 4 (by norm_num) (by norm_num)
    (by norm_num [LOOT_RATIOS]) (by norm_num [LOOT_RATIOS])).2.2

set_option maxHeartbeats 3200000 in
/-- C4 counterexample: pool {light: 12 (carry 100), spear: 14 (carry 99)}
with all four tiers active. The greedy fill leaves every upper tier just
short of its target, so `carry(1)·r₁ − carry(4)·r₄ = 103.6`, which exceeds
every unit-carry quantum in play (100 and 99): the realized carries are
*not* equal within one unit-carry quantum. -/
theorem equal_runtime_quantum_counterexample :
    allocate_by_ratio [("light", 12), ("spear", 14)]
      (equal_runtime_weights [1, 2, 3, 4]) [("light", 100), ("spear", 99)] =
      [(1, [("light", 4), ("spear", 14)]), (2, [("light", 5)]),
       (3, [("light", 2)]), (4, [("light", 1)])] ∧
    (calculate_carry_capacity [("light", 4), ("spear", 14)]
        [("light", 100), ("spear", 99)] : ℚ) * lootRatio 1 -
      (calculate_carry_capacity [("light", 1)]
        [("light", 100), ("spear", 99)] : ℚ) * lootRatio 4 = 518 / 5 ∧
    (100 : ℚ) < 518 / 5 ∧
    carryOf [("light", 100), ("spear", 99)] "light" = 100 ∧
    carryOf [("light", 100), ("spear", 99)] "spear" = 99 := by
  have hweights : equal_runtime_weights [1, 2, 3, 4] =
      [(1, 10), (2, 4), (3, 2), (4, 4 / 3)] := by
    simp only [equal_runtime_weights, LOOT_RATIOS, List.map_cons, List.map_nil,
      List.filterMap_cons, List.filterMap_nil]
    norm_num [lootRatio, LOOT_RATIOS, List.find?_cons]
  rw [hweights]
  refine ⟨?_, ?_, by norm_num, by decide, by decide⟩
  · simp [allocate_by_ratio, scavengePool, SCAVENGE_UNITS, poolTotalCarry,
      weightOf, fillStep, fillUnits, sortByCarryDesc, insertByCarry, sortNatDesc,
      insertNatDesc, carryOf, lookupD, setKey, List.find?_cons, List.min?_cons]
    norm_num
    simp [fillUnits, sortByCarryDesc, insertByCarry, carryOf, lookupD, setKey,
      List.find?_cons]
    norm_num
    simp [fillUnits, sortByCarryDesc, insertByCarry, carryOf, lookupD, setKey,
      List.find?_cons]
    norm_num
    simp [List.filterMap_cons]
  · simp [calculate_carry_capacity, carryOf, lootRatio, LOOT_RATIOS,
      List.find?_cons]
    norm_num
